import Mathlib

/-!
Verification of the content-extraction and context-assembly pipeline of the
opal-sanity-tool repository (`src/functions/SanityToolFunction.ts`).

Strings are modelled as `List Char`; JavaScript `slice` (with negative index
clamping), `trim`, regex splits on blank lines (`/\n\n+/`) and sentence
boundaries (`/(?<=\.)\s+/`), the chunker, the field-type classifier, the
document flattener and the `retrieve_context` assembly loop are translated
directly from the TypeScript source.  The hard-split `while` loop of
`chunkText` is translated with an explicit fuel parameter, `none` denoting
fuel exhaustion; the loop body is untouched.
-/

namespace SanityTool

/-- JavaScript whitespace (the characters relevant to this code base). -/
def isWs (c : Char) : Bool :=
  c = ' ' || c = '\n' || c = '\t' || c = '\r'

/-- The non-whitespace content of a string (used to state content preservation). -/
def nws (l : List Char) : List Char := l.filter (fun c => !isWs c)

/-- Concatenation of a list of strings. -/
def joinL (L : List (List Char)) : List Char := L.foldr (· ++ ·) []

/-- Clamp a JavaScript slice index to `[0, len]` (negative counts from the end). -/
def clampIdx (len : Nat) (x : Int) : Nat :=
  if x < 0 then ((len : Int) + x).toNat else min x.toNat len

/-- JavaScript `s.slice(a, b)`. -/
def jsSlice (l : List Char) (a b : Int) : List Char :=
  (l.take (clampIdx l.length b)).drop (clampIdx l.length a)

/-- JavaScript `s.slice(a)`. -/
def jsSliceFrom (l : List Char) (a : Int) : List Char :=
  l.drop (clampIdx l.length a)

/-- JavaScript `String.prototype.trim` (both ends). -/
def trim (l : List Char) : List Char :=
  ((l.dropWhile isWs).reverse.dropWhile isWs).reverse

/-- Worker for `text.split(/\n\n+/)`: scan the text left to right; on a run
of at least two newlines, close the current part and consume the whole run
(the `gap` flag is set while inside a separator run, matching the greedy
`+` of the regex). -/
def spAux : List Char → List Char → Bool → List (List Char)
  | [], acc, _ => [acc.reverse]
  | '\n' :: rest, acc, true => spAux rest acc true
  | c :: rest, acc, true => spAux rest (c :: acc) false
  | '\n' :: '\n' :: r2, acc, false => acc.reverse :: spAux r2 [] true
  | c :: rest, acc, false => spAux rest (c :: acc) false

/-- `text.split(/\n\n+/)` from the source's paragraph split. -/
def splitParas (l : List Char) : List (List Char) := spAux l [] false

/-- Worker for `trimmed.split(/(?<=\.)\s+/)`: split at a whitespace run
that immediately follows a period; the `gap` flag is set while consuming a
separator run (the greedy `\s+`). -/
def ssAux : List Char → List Char → Bool → List (List Char)
  | [], acc, _ => [acc.reverse]
  | c :: rest, acc, true =>
    if isWs c then ssAux rest acc true
    else if c = '.' ∧ rest.head?.any isWs then
      (c :: acc).reverse :: ssAux rest [] true
    else ssAux rest (c :: acc) false
  | c :: rest, acc, false =>
    if c = '.' ∧ rest.head?.any isWs then
      (c :: acc).reverse :: ssAux rest [] true
    else ssAux rest (c :: acc) false

/-- `trimmed.split(/(?<=\.)\s+/)` from the source's sentence split. -/
def splitSentences (l : List Char) : List (List Char) := ssAux l [] false

/-- The three-character ellipsis marker appended by the hard split. -/
def ellipsis : List Char := ['.', '.', '.']

/-- The hard-split `while (remaining.length > maxChunkSize)` loop of
`chunkText`, with fuel.  Returns the pushed pieces and the final
`remaining` (the new accumulating chunk); `none` when fuel runs out. -/
def hardSplit : Nat → List Char → Nat → Option (List (List Char) × List Char)
  | 0, remaining, maxSize =>
    if remaining.length ≤ maxSize then some ([], remaining) else none
  | fuel + 1, remaining, maxSize =>
    if remaining.length ≤ maxSize then some ([], remaining)
    else
      match hardSplit fuel (jsSliceFrom remaining ((maxSize : Int) - 3)) maxSize with
      | none => none
      | some (ps, r) =>
        some ((jsSlice remaining 0 ((maxSize : Int) - 3) ++ ellipsis) :: ps, r)

/-- `currentChunk ? currentChunk + ' ' + sentence : sentence`. -/
def joinSp (cur s : List Char) : List Char :=
  if cur = [] then s else cur ++ ' ' :: s

/-- `currentChunk ? currentChunk + '\n\n' + trimmed : trimmed`. -/
def joinPara (cur t : List Char) : List Char :=
  if cur = [] then t else cur ++ '\n' :: '\n' :: t

/-- The inner `for (const sentence of sentences)` loop of `chunkText`. -/
def procSentences (maxSize fuel : Nat) :
    List (List Char) → List (List Char) → List Char →
    Option (List (List Char) × List Char)
  | [], chunks, cur => some (chunks, cur)
  | s :: rest, chunks, cur =>
    if cur.length + s.length + 1 ≤ maxSize then
      procSentences maxSize fuel rest chunks (joinSp cur s)
    else
      if s.length > maxSize then
        match hardSplit fuel s maxSize with
        | none => none
        | some (ps, r) =>
          procSentences maxSize fuel rest
            ((if cur = [] then chunks else chunks ++ [cur]) ++ ps) r
      else
        procSentences maxSize fuel rest
          (if cur = [] then chunks else chunks ++ [cur]) s

/-- The outer `for (const paragraph of paragraphs)` loop of `chunkText`. -/
def procParas (maxSize fuel : Nat) :
    List (List Char) → List (List Char) → List Char →
    Option (List (List Char) × List Char)
  | [], chunks, cur => some (chunks, cur)
  | p :: rest, chunks, cur =>
    if trim p = [] then procParas maxSize fuel rest chunks cur
    else if cur.length + (trim p).length + 2 ≤ maxSize then
      procParas maxSize fuel rest chunks (joinPara cur (trim p))
    else
      if (trim p).length ≤ maxSize then
        procParas maxSize fuel rest
          (if cur = [] then chunks else chunks ++ [cur]) (trim p)
      else
        match procSentences maxSize fuel (splitSentences (trim p))
            (if cur = [] then chunks else chunks ++ [cur]) [] with
        | none => none
        | some (c2, cur2) => procParas maxSize fuel rest c2 cur2

/-- `chunkText(text, maxChunkSize)` from the source, with fuel for the
hard-split loop. -/
def chunkText (fuel : Nat) (text : List Char) (maxChunkSize : Nat) :
    Option (List (List Char)) :=
  if text = [] then some []
  else if text.length ≤ maxChunkSize then some [text]
  else
    match procParas maxChunkSize fuel (splitParas text) [] [] with
    | none => none
    | some (chunks, cur) => some (if cur = [] then chunks else chunks ++ [cur])

/-- A chunk carries the hard-split ellipsis marker at its end. -/
def endsEllipsis (c : List Char) : Bool := c.reverse.take 3 == ellipsis

theorem endsEllipsis_append (x : List Char) : endsEllipsis (x ++ ellipsis) = true := by
  simp [endsEllipsis, ellipsis]

/-- The per-chunk guarantee of the chunker: within the size limit, or an
explicitly ellipsis-marked hard-split piece. -/
def chunkOk (m : Nat) (c : List Char) : Prop := c.length ≤ m ∨ endsEllipsis c = true

theorem hardSplit_pieces {fuel : Nat} {s : List Char} {m : Nat}
    {ps : List (List Char)} {r : List Char}
    (h : hardSplit fuel s m = some (ps, r)) :
    (∀ p ∈ ps, endsEllipsis p = true ∧ p ≠ []) ∧ r.length ≤ m := by
  induction fuel generalizing s ps r with
  | zero =>
    unfold hardSplit at h
    split at h
    · simp only [Option.some.injEq, Prod.mk.injEq] at h
      obtain ⟨rfl, rfl⟩ := h
      simp_all
    · exact Option.noConfusion h
  | succ fuel ih =>
    unfold hardSplit at h
    split at h
    · simp only [Option.some.injEq, Prod.mk.injEq] at h
      obtain ⟨rfl, rfl⟩ := h
      simp_all
    · revert h
      split
      · intro h; exact Option.noConfusion h
      · next ps' r' heq =>
        intro h
        simp only [Option.some.injEq, Prod.mk.injEq] at h
        obtain ⟨rfl, rfl⟩ := h
        obtain ⟨hps, hr⟩ := ih heq
        refine ⟨?_, hr⟩
        intro p hp
        rcases List.mem_cons.1 hp with rfl | hp
        · exact ⟨endsEllipsis_append _, by simp [ellipsis]⟩
        · exact hps p hp

theorem joinSp_length_le {cur s : List Char} {m : Nat}
    (h : cur.length + s.length + 1 ≤ m) : (joinSp cur s).length ≤ m := by
  unfold joinSp
  split
  · omega
  · simp only [List.length_append, List.length_cons]; omega

theorem joinPara_length_le {cur t : List Char} {m : Nat}
    (h : cur.length + t.length + 2 ≤ m) : (joinPara cur t).length ≤ m := by
  unfold joinPara
  split
  · omega
  · simp only [List.length_append, List.length_cons]; omega

theorem procSentences_ok {m fuel : Nat} :
    ∀ (ss chunks : List (List Char)) (cur : List Char)
      (chunks' : List (List Char)) (cur' : List Char),
      (∀ c ∈ chunks, chunkOk m c ∧ c ≠ []) → cur.length ≤ m →
      procSentences m fuel ss chunks cur = some (chunks', cur') →
      (∀ c ∈ chunks', chunkOk m c ∧ c ≠ []) ∧ cur'.length ≤ m := by
  intro ss
  induction ss with
  | nil =>
    intro chunks cur chunks' cur' hch hcur h
    simp only [procSentences, Option.some.injEq, Prod.mk.injEq] at h
    obtain ⟨rfl, rfl⟩ := h
    exact ⟨hch, hcur⟩
  | cons s rest ih =>
    intro chunks cur chunks' cur' hch hcur h
    have hch1 : ∀ c ∈ (if cur = [] then chunks else chunks ++ [cur]),
        chunkOk m c ∧ c ≠ [] := by
      split
      · exact hch
      · next hne =>
        intro c hc
        rcases List.mem_append.1 hc with hc | hc
        · exact hch c hc
        · rcases List.mem_singleton.1 hc with rfl
          exact ⟨Or.inl hcur, hne⟩
    unfold procSentences at h
    split at h
    · exact ih _ _ _ _ hch (joinSp_length_le (by assumption)) h
    · split at h
      · revert h
        split
        · intro h; exact Option.noConfusion h
        · next ps r heq =>
          intro h
          obtain ⟨hps, hr⟩ := hardSplit_pieces heq
          refine ih _ _ _ _ ?_ hr h
          intro c hc
          rcases List.mem_append.1 hc with hc | hc
          · exact hch1 c hc
          · obtain ⟨he, hne⟩ := hps c hc
            exact ⟨Or.inr he, hne⟩
      · exact ih _ _ _ _ hch1 (by omega) h

theorem procParas_ok {m fuel : Nat} :
    ∀ (ps chunks : List (List Char)) (cur : List Char)
      (chunks' : List (List Char)) (cur' : List Char),
      (∀ c ∈ chunks, chunkOk m c ∧ c ≠ []) → cur.length ≤ m →
      procParas m fuel ps chunks cur = some (chunks', cur') →
      (∀ c ∈ chunks', chunkOk m c ∧ c ≠ []) ∧ cur'.length ≤ m := by
  intro ps
  induction ps with
  | nil =>
    intro chunks cur chunks' cur' hch hcur h
    simp only [procParas, Option.some.injEq, Prod.mk.injEq] at h
    obtain ⟨rfl, rfl⟩ := h
    exact ⟨hch, hcur⟩
  | cons p rest ih =>
    intro chunks cur chunks' cur' hch hcur h
    have hch1 : ∀ c ∈ (if cur = [] then chunks else chunks ++ [cur]),
        chunkOk m c ∧ c ≠ [] := by
      split
      · exact hch
      · next hne =>
        intro c hc
        rcases List.mem_append.1 hc with hc | hc
        · exact hch c hc
        · rcases List.mem_singleton.1 hc with rfl
          exact ⟨Or.inl hcur, hne⟩
    unfold procParas at h
    split at h
    · exact ih _ _ _ _ hch hcur h
    · split at h
      · exact ih _ _ _ _ hch (joinPara_length_le (by assumption)) h
      · split at h
        · exact ih _ _ _ _ hch1 (by assumption) h
        · revert h
          split
          · intro h; exact Option.noConfusion h
          · next c2 cur2 heq =>
            intro h
            obtain ⟨h1, h2⟩ := procSentences_ok _ _ _ _ _ hch1 (by simp) heq
            exact ih _ _ _ _ h1 h2 h

theorem chunkText_invariant {fuel : Nat} {t : List Char} {m : Nat}
    {l : List (List Char)} (h : chunkText fuel t m = some l) :
    ∀ c ∈ l, chunkOk m c ∧ c ≠ [] := by
  unfold chunkText at h
  split at h
  · simp only [Option.some.injEq] at h
    obtain rfl := h
    simp
  · split at h
    · simp only [Option.some.injEq] at h
      obtain rfl := h
      intro c hc
      rcases List.mem_singleton.1 hc with rfl
      exact ⟨Or.inl (by assumption), by assumption⟩
    · revert h
      split
      · intro h; exact Option.noConfusion h
      · next chunks cur heq =>
        intro h
        simp only [Option.some.injEq] at h
        obtain rfl := h
        obtain ⟨h1, h2⟩ := procParas_ok _ _ _ _ _ (by simp) (by simp) heq
        split
        · exact h1
        · next hne =>
          intro c hc
          rcases List.mem_append.1 hc with hc | hc
          · exact h1 c hc
          · rcases List.mem_singleton.1 hc with rfl
            exact ⟨Or.inl h2, hne⟩

/-- C3: for every text `t` and positive limit `m`, every element of the
list returned by `chunkText t m` has length at most `m`, except explicitly
ellipsis-marked hard-split pieces. -/
theorem chunkText_chunk_size_bound (fuel : Nat) (t : List Char) (m : Nat)
    (l : List (List Char)) (hm : 0 < m) (h : chunkText fuel t m = some l) :
    ∀ c ∈ l, c.length ≤ m ∨ endsEllipsis c = true :=
  fun c hc => (chunkText_invariant h c hc).1

/-- Witness for C3 at `t = "ab"`, `m = 4`. -/
theorem chunkText_chunk_size_bound_witness :
    (['a', 'b'] : List Char).length ≤ 4 ∨ endsEllipsis ['a', 'b'] = true :=
  chunkText_chunk_size_bound 10 ['a', 'b'] 4 [['a', 'b']] (by decide) rfl
    ['a', 'b'] (by decide)

/-- C10: every element of a list returned by `chunkText` is a non-empty
string: the accumulator is pushed only when non-empty, and every hard-split
piece carries at least the ellipsis marker. -/
theorem chunkText_chunks_nonempty (fuel : Nat) (t : List Char) (m : Nat)
    (l : List (List Char)) (h : chunkText fuel t m = some l) :
    ∀ c ∈ l, c ≠ [] :=
  fun c hc => (chunkText_invariant h c hc).2

/-- Witness for C10 at `t = "xy"`, `m = 7`. -/
theorem chunkText_chunks_nonempty_witness :
    (['x', 'y'] : List Char) ≠ [] :=
  chunkText_chunks_nonempty 10 ['x', 'y'] 7 [['x', 'y']] rfl ['x', 'y'] (by decide)

theorem jsSliceFrom_zero (l : List Char) : jsSliceFrom l 0 = l := by
  simp [jsSliceFrom, clampIdx]

/-- With `maxChunkSize = 3` the hard-split loop slices `remaining` from
index `0`, so `remaining` never shrinks: no amount of fuel suffices. -/
theorem hardSplit_three (fuel : Nat) : ∀ s : List Char, 3 < s.length →
    hardSplit fuel s 3 = none := by
  induction fuel with
  | zero =>
    intro s hs
    unfold hardSplit
    rw [if_neg (by omega)]
  | succ fuel ih =>
    intro s hs
    unfold hardSplit
    rw [if_neg (by omega)]
    have h0 : ((3 : Nat) : Int) - 3 = 0 := by norm_num
    rw [h0, jsSliceFrom_zero, ih s hs]

/-- `chunkText t m` runs out of fuel whatever the fuel: the source's loop
never terminates on this input. -/
def chunkTextDivergesAt (t : List Char) (m : Nat) : Prop :=
  ∀ fuel, chunkText fuel t m = none

/-- C4 counterexample: on text `"abcde"` with limit `m = 3` the hard-split
loop of `chunkText` never reaches a remainder that fits (the slice length
`m - 3` is zero), so `chunkText` does not terminate. -/
theorem chunkText_diverges_cx : chunkTextDivergesAt ['a', 'b', 'c', 'd', 'e'] 3 := by
  intro fuel
  have hs := hardSplit_three fuel ['a', 'b', 'c', 'd', 'e'] (by decide)
  simp +decide [chunkText, splitParas, spAux, splitSentences, ssAux, trim,
    procParas, procSentences, isWs, joinSp, hs]

theorem spAux_part_length : ∀ (l acc : List Char) (mode : Bool),
    ∀ p ∈ spAux l acc mode, p.length ≤ acc.length + l.length := by
  intro l acc mode
  induction l, acc, mode using spAux.induct with
  | case1 acc mode =>
    intro p hp
    rcases List.mem_singleton.1 hp with rfl
    simp
  | case2 rest acc ih =>
    intro p hp
    rw [spAux.eq_2] at hp
    have := ih p hp
    simp only [List.length_cons] at *
    omega
  | case3 c rest acc hne ih =>
    intro p hp
    rw [spAux.eq_3 _ _ _ hne] at hp
    have := ih p hp
    simp only [List.length_cons] at *
    omega
  | case4 r2 acc ih =>
    intro p hp
    rw [spAux.eq_4] at hp
    rcases List.mem_cons.1 hp with rfl | hp
    · simp only [List.length_reverse, List.length_cons]
      omega
    · have := ih p hp
      simp only [List.length_nil, List.length_cons] at *
      omega
  | case5 c rest acc hne ih =>
    intro p hp
    rw [spAux.eq_5 _ _ _ hne] at hp
    have := ih p hp
    simp only [List.length_cons] at *
    omega

theorem ssAux_part_length : ∀ (l acc : List Char) (mode : Bool),
    ∀ p ∈ ssAux l acc mode, p.length ≤ acc.length + l.length := by
  intro l acc mode
  induction l, acc, mode using ssAux.induct with
  | case1 acc mode =>
    intro p hp
    rcases List.mem_singleton.1 hp with rfl
    simp
  | case2 c rest acc hws ih =>
    intro p hp
    simp only [ssAux, hws, if_true] at hp
    have := ih p hp
    simp only [List.length_cons] at *
    omega
  | case3 c rest acc hws hdot ih =>
    intro p hp
    simp only [ssAux, hws, hdot, if_true, if_false] at hp
    rcases List.mem_cons.1 hp with rfl | hp
    · simp only [List.length_reverse, List.length_cons]
      omega
    · have := ih p hp
      simp only [List.length_nil, List.length_cons] at *
      omega
  | case4 c rest acc hws hdot ih =>
    intro p hp
    simp only [ssAux, hws, hdot, if_true, if_false] at hp
    have := ih p hp
    simp only [List.length_cons] at *
    omega
  | case5 c rest acc hdot ih =>
    intro p hp
    simp only [ssAux, hdot, if_true] at hp
    rcases List.mem_cons.1 hp with rfl | hp
    · simp only [List.length_reverse, List.length_cons]
      omega
    · have := ih p hp
      simp only [List.length_nil, List.length_cons] at *
      omega
  | case6 c rest acc hdot ih =>
    intro p hp
    simp only [ssAux, hdot, if_false] at hp
    have := ih p hp
    simp only [List.length_cons] at *
    omega

theorem dropWhile_len_le (p : Char → Bool) (l : List Char) :
    (l.dropWhile p).length ≤ l.length :=
  (List.dropWhile_suffix p).sublist.length_le

theorem trim_length_le (l : List Char) : (trim l).length ≤ l.length := by
  unfold trim
  calc ((l.dropWhile isWs).reverse.dropWhile isWs).reverse.length
      = ((l.dropWhile isWs).reverse.dropWhile isWs).length := List.length_reverse _
    _ ≤ (l.dropWhile isWs).reverse.length := dropWhile_len_le _ _
    _ = (l.dropWhile isWs).length := List.length_reverse _
    _ ≤ l.length := dropWhile_len_le _ _

theorem hardSplit_some (m : Nat) (hm : m = 2 ∨ 4 ≤ m) :
    ∀ (fuel : Nat) (s : List Char), s.length ≤ fuel →
    ∃ pr, hardSplit fuel s m = some pr := by
  intro fuel
  induction fuel with
  | zero =>
    intro s hs
    refine ⟨([], s), ?_⟩
    unfold hardSplit
    rw [if_pos (by omega)]
  | succ fuel ih =>
    intro s hs
    by_cases hfit : s.length ≤ m
    · exact ⟨([], s), by unfold hardSplit; rw [if_pos hfit]⟩
    · have hcl : 1 ≤ clampIdx s.length ((m : Int) - 3) := by
        unfold clampIdx
        split
        · next hneg =>
          rcases hm with rfl | h4
          · omega
          · omega
        · next hpos =>
          rcases hm with rfl | h4
          · omega
          · omega
      have hd : (jsSliceFrom s ((m : Int) - 3)).length
          = s.length - clampIdx s.length ((m : Int) - 3) := by
        simp [jsSliceFrom]
      obtain ⟨⟨ps, r⟩, hpr⟩ := ih (jsSliceFrom s ((m : Int) - 3)) (by omega)
      refine ⟨((jsSlice s 0 ((m : Int) - 3) ++ ellipsis) :: ps, r), ?_⟩
      unfold hardSplit
      rw [if_neg hfit, hpr]

theorem procSentences_some (m fuel : Nat) (hm : m = 2 ∨ 4 ≤ m) :
    ∀ (ss : List (List Char)), (∀ s ∈ ss, s.length ≤ fuel) →
    ∀ chunks cur, ∃ out, procSentences m fuel ss chunks cur = some out := by
  intro ss
  induction ss with
  | nil =>
    intro _ chunks cur
    exact ⟨(chunks, cur), rfl⟩
  | cons s rest ih =>
    intro hss chunks cur
    have hrest : ∀ x ∈ rest, x.length ≤ fuel := fun x hx => hss x (.tail _ hx)
    unfold procSentences
    split
    · exact ih hrest _ _
    · split
      · obtain ⟨⟨ps, r⟩, hps⟩ := hardSplit_some m hm fuel s (hss s (.head _))
        rw [hps]
        exact ih hrest _ _
      · exact ih hrest _ _

theorem procParas_some (m fuel : Nat) (hm : m = 2 ∨ 4 ≤ m) :
    ∀ (ps : List (List Char)),
      (∀ p ∈ ps, ∀ s ∈ splitSentences (trim p), s.length ≤ fuel) →
    ∀ chunks cur, ∃ out, procParas m fuel ps chunks cur = some out := by
  intro ps
  induction ps with
  | nil =>
    intro _ chunks cur
    exact ⟨(chunks, cur), rfl⟩
  | cons p rest ih =>
    intro hps chunks cur
    have hrest : ∀ x ∈ rest, ∀ s ∈ splitSentences (trim x), s.length ≤ fuel :=
      fun x hx => hps x (.tail _ hx)
    unfold procParas
    split
    · exact ih hrest _ _
    · split
      · exact ih hrest _ _
      · split
        · exact ih hrest _ _
        · obtain ⟨⟨c2, cur2⟩, hsent⟩ :=
            procSentences_some m fuel hm (splitSentences (trim p))
              (hps p (.head _)) (if cur = [] then chunks else chunks ++ [cur]) []
          rw [hsent]
          exact ih hrest _ _

/-- C4 (amended): for every text `t` and limit `m` with `m = 2` or `m ≥ 4`,
`chunkText` terminates — fuel `t.length` suffices for every hard-split loop
(each slice removes at least one character).  For `m ∈ {1, 3}` the
hard-split loop diverges on any sentence longer than `m`
(`chunkText_diverges_cx`). -/
theorem chunkText_terminates (t : List Char) (m : Nat) (hm : m = 2 ∨ 4 ≤ m) :
    ∃ l, chunkText t.length t m = some l := by
  by_cases h0 : t = []
  · exact ⟨[], by rw [h0]; rfl⟩
  · by_cases h1 : t.length ≤ m
    · exact ⟨[t], by unfold chunkText; rw [if_neg h0, if_pos h1]⟩
    · have hbound : ∀ p ∈ splitParas t, ∀ s ∈ splitSentences (trim p),
          s.length ≤ t.length := by
        intro p hp s hs
        have h2 := ssAux_part_length (trim p) [] false s hs
        have h3 := trim_length_le p
        have h4 := spAux_part_length t [] false p hp
        simp only [List.length_nil] at h2 h4
        omega
      obtain ⟨⟨chunks, cur⟩, hout⟩ :=
        procParas_some m t.length hm (splitParas t) hbound [] []
      refine ⟨(if cur = [] then chunks else chunks ++ [cur]), ?_⟩
      unfold chunkText
      rw [if_neg h0, if_neg h1, hout]

/-- Witness for C4 (amended) at `t = "ab"`, `m = 2`. -/
theorem chunkText_terminates_witness :
    (chunkText ((['a', 'b'] : List Char).length) ['a', 'b'] 2).isSome = true := by
  obtain ⟨l, hl⟩ := chunkText_terminates ['a', 'b'] 2 (Or.inl rfl)
  rw [hl]
  rfl

/-- The non-whitespace content of a list of chunks, in order. -/
def flatNws (L : List (List Char)) : List Char := joinL (L.map nws)

theorem nws_append (a b : List Char) : nws (a ++ b) = nws a ++ nws b :=
  List.filter_append ..

theorem nws_reverse (l : List Char) : nws l.reverse = (nws l).reverse :=
  List.filter_reverse ..

theorem nws_dropWhileWs (l : List Char) : nws (l.dropWhile isWs) = nws l := by
  induction l with
  | nil => rfl
  | cons c rest ih =>
    by_cases hc : isWs c = true
    · rw [List.dropWhile_cons_of_pos hc, ih]
      simp [nws, List.filter_cons, hc]
    · rw [List.dropWhile_cons_of_neg hc]

theorem nws_trim (l : List Char) : nws (trim l) = nws l := by
  unfold trim
  rw [nws_reverse, nws_dropWhileWs, nws_reverse, List.reverse_reverse,
    nws_dropWhileWs]

theorem joinL_cons (a : List Char) (L : List (List Char)) :
    joinL (a :: L) = a ++ joinL L := rfl

theorem flatNws_cons (a : List Char) (L : List (List Char)) :
    flatNws (a :: L) = nws a ++ flatNws L := rfl

theorem flatNws_append (L1 L2 : List (List Char)) :
    flatNws (L1 ++ L2) = flatNws L1 ++ flatNws L2 := by
  induction L1 with
  | nil => rfl
  | cons a L ih => simp [flatNws_cons, ih, List.append_assoc]

theorem flatNws_push (chunks : List (List Char)) (cur : List Char) :
    flatNws (if cur = [] then chunks else chunks ++ [cur])
      = flatNws chunks ++ nws cur := by
  split
  · next hc => subst hc; simp [flatNws, nws, joinL]
  · rw [flatNws_append]; simp [flatNws, nws, joinL]

theorem nws_joinL (L : List (List Char)) : nws (joinL L) = flatNws L := by
  induction L with
  | nil => rfl
  | cons a L ih => rw [joinL_cons, nws_append, ih]; rfl

theorem nws_ws_cons {c : Char} (h : isWs c = true) (l : List Char) :
    nws (c :: l) = nws l := by
  simp [nws, List.filter_cons, h]

theorem nws_joinSp (cur s : List Char) : nws (joinSp cur s) = nws cur ++ nws s := by
  unfold joinSp
  split
  · next hc => subst hc; rfl
  · rw [nws_append, nws_ws_cons (by decide)]

theorem nws_joinPara (cur t : List Char) :
    nws (joinPara cur t) = nws cur ++ nws t := by
  unfold joinPara
  split
  · next hc => subst hc; rfl
  · rw [nws_append, nws_ws_cons (by decide), nws_ws_cons (by decide)]

theorem spAux_nws : ∀ (l acc : List Char) (mode : Bool),
    flatNws (spAux l acc mode) = nws acc.reverse ++ nws l := by
  intro l acc mode
  induction l, acc, mode using spAux.induct with
  | case1 acc mode => simp [spAux, flatNws, joinL, nws]
  | case2 rest acc ih =>
    rw [spAux.eq_2, ih, nws_ws_cons (by decide)]
  | case3 c rest acc hne ih =>
    rw [spAux.eq_3 _ _ _ hne, ih]
    rw [List.reverse_cons, nws_append]
    by_cases hc : isWs c = true
    · rw [nws_ws_cons hc]
      simp [nws, List.filter_cons, hc, List.append_assoc]
    · simp [nws, List.filter_cons, hc, List.append_assoc]
  | case4 r2 acc ih =>
    rw [spAux.eq_4, flatNws_cons, ih]
    rw [nws_ws_cons (by decide), nws_ws_cons (by decide)]
    simp [nws, List.append_assoc]
  | case5 c rest acc hne ih =>
    rw [spAux.eq_5 _ _ _ hne, ih]
    rw [List.reverse_cons, nws_append]
    by_cases hc : isWs c = true
    · rw [nws_ws_cons hc]
      simp [nws, List.filter_cons, hc, List.append_assoc]
    · simp [nws, List.filter_cons, hc, List.append_assoc]

theorem splitParas_nws (t : List Char) : flatNws (splitParas t) = nws t := by
  rw [splitParas, spAux_nws]; rfl

theorem ssAux_nws : ∀ (l acc : List Char) (mode : Bool),
    flatNws (ssAux l acc mode) = nws acc.reverse ++ nws l := by
  intro l acc mode
  induction l, acc, mode using ssAux.induct with
  | case1 acc mode => simp [ssAux, flatNws, joinL, nws]
  | case2 c rest acc hws ih =>
    simp only [ssAux, hws, if_true]
    rw [ih, nws_ws_cons hws]
  | case3 c rest acc hws hdot ih =>
    obtain ⟨rfl, hnext⟩ := hdot
    simp only [ssAux]
    rw [if_neg (by decide), if_pos (by simp [hnext]), flatNws_cons, ih,
      List.reverse_cons, nws_append]
    simp +decide [nws, List.filter_cons, List.append_assoc]
  | case4 c rest acc hws hdot ih =>
    simp only [ssAux, hws, hdot, if_true, if_false, Bool.false_eq_true]
    rw [ih, List.reverse_cons, nws_append]
    simp [nws, List.filter_cons, hws, List.append_assoc]
  | case5 c rest acc hdot ih =>
    obtain ⟨rfl, hnext⟩ := hdot
    simp only [ssAux]
    rw [if_pos (by simp [hnext]), flatNws_cons, ih,
      List.reverse_cons, nws_append]
    simp +decide [nws, List.filter_cons, List.append_assoc]
  | case6 c rest acc hdot ih =>
    simp only [ssAux, hdot, if_false]
    rw [ih, List.reverse_cons, nws_append]
    by_cases hc : isWs c = true
    · simp [nws, List.filter_cons, hc, List.append_assoc]
    · simp [nws, List.filter_cons, hc, List.append_assoc]

theorem splitSentences_nws (t : List Char) :
    flatNws (splitSentences t) = nws t := by
  rw [splitSentences, ssAux_nws]; rfl

theorem jsSlice_zero_append (l : List Char) (a : Int) :
    jsSlice l 0 a ++ jsSliceFrom l a = l := by
  unfold jsSlice jsSliceFrom
  have h0 : clampIdx l.length 0 = 0 := by simp [clampIdx]
  rw [h0, List.drop_zero, List.take_append_drop]

theorem hardSplit_nws {fuel : Nat} {s : List Char} {m : Nat}
    {ps : List (List Char)} {r : List Char}
    (h : hardSplit fuel s m = some (ps, r)) :
    List.Sublist (nws s) (flatNws ps ++ nws r) := by
  induction fuel generalizing s ps r with
  | zero =>
    unfold hardSplit at h
    split at h
    · simp only [Option.some.injEq, Prod.mk.injEq] at h
      obtain ⟨rfl, rfl⟩ := h
      simp [flatNws, joinL]
    · exact Option.noConfusion h
  | succ fuel ih =>
    unfold hardSplit at h
    split at h
    · simp only [Option.some.injEq, Prod.mk.injEq] at h
      obtain ⟨rfl, rfl⟩ := h
      simp [flatNws, joinL]
    · revert h
      split
      · intro h; exact Option.noConfusion h
      · next ps' r' heq =>
        intro h
        simp only [Option.some.injEq, Prod.mk.injEq] at h
        obtain ⟨rfl, rfl⟩ := h
        have hsplit := jsSlice_zero_append s ((m : Int) - 3)
        have hihs := ih heq
        have h1 : nws s = nws (jsSlice s 0 ((m : Int) - 3))
            ++ nws (jsSliceFrom s ((m : Int) - 3)) := by
          rw [← nws_append, hsplit]
        have h2 : List.Sublist (nws (jsSliceFrom s ((m : Int) - 3)))
            (nws ellipsis ++ (flatNws ps' ++ nws r')) :=
          hihs.trans (List.sublist_append_right (nws ellipsis) _)
        have h3 := h2.append_left (nws (jsSlice s 0 ((m : Int) - 3)))
        rw [← h1] at h3
        have h4 : flatNws ((jsSlice s 0 ((m : Int) - 3) ++ ellipsis) :: ps')
            ++ nws r' = nws (jsSlice s 0 ((m : Int) - 3))
              ++ (nws ellipsis ++ (flatNws ps' ++ nws r')) := by
          rw [flatNws_cons, nws_append]
          simp [List.append_assoc]
        rw [h4]
        exact h3

theorem procSentences_nws {m fuel : Nat} :
    ∀ (ss chunks : List (List Char)) (cur : List Char)
      (chunks' : List (List Char)) (cur' : List Char),
      procSentences m fuel ss chunks cur = some (chunks', cur') →
      List.Sublist (flatNws chunks ++ nws cur ++ flatNws ss)
        (flatNws chunks' ++ nws cur') := by
  intro ss
  induction ss with
  | nil =>
    intro chunks cur chunks' cur' h
    simp only [procSentences, Option.some.injEq, Prod.mk.injEq] at h
    obtain ⟨rfl, rfl⟩ := h
    simp [flatNws, joinL]
  | cons s rest ih =>
    intro chunks cur chunks' cur' h
    unfold procSentences at h
    split at h
    · have := ih _ _ _ _ h
      rw [nws_joinSp] at this
      simpa [flatNws_cons, List.append_assoc] using this
    · split at h
      · revert h
        split
        · intro h; exact Option.noConfusion h
        · next ps r heq =>
          intro h
          have hih := ih _ _ _ _ h
          rw [flatNws_append, flatNws_push] at hih
          have hhs := hardSplit_nws heq
          have step : List.Sublist
              ((flatNws chunks ++ nws cur) ++ (nws s ++ flatNws rest))
              ((flatNws chunks ++ nws cur) ++ ((flatNws ps ++ nws r) ++ flatNws rest)) :=
            ((hhs.append (List.Sublist.refl _))).append_left _
          have := step.trans (by simpa [List.append_assoc] using hih)
          simpa [flatNws_cons, List.append_assoc] using this
      · have hih := ih _ _ _ _ h
        rw [flatNws_push] at hih
        simpa [flatNws_cons, List.append_assoc] using hih

theorem procParas_nws {m fuel : Nat} :
    ∀ (ps chunks : List (List Char)) (cur : List Char)
      (chunks' : List (List Char)) (cur' : List Char),
      procParas m fuel ps chunks cur = some (chunks', cur') →
      List.Sublist (flatNws chunks ++ nws cur ++ flatNws ps)
        (flatNws chunks' ++ nws cur') := by
  intro ps
  induction ps with
  | nil =>
    intro chunks cur chunks' cur' h
    simp only [procParas, Option.some.injEq, Prod.mk.injEq] at h
    obtain ⟨rfl, rfl⟩ := h
    simp [flatNws, joinL]
  | cons p rest ih =>
    intro chunks cur chunks' cur' h
    unfold procParas at h
    split at h
    · next hemp =>
      have := ih _ _ _ _ h
      have hp0 : nws p = [] := by
        have := nws_trim p
        rw [hemp] at this
        exact this.symm
      simpa [flatNws_cons, hp0, List.append_assoc] using this
    · split at h
      · have := ih _ _ _ _ h
        rw [nws_joinPara, nws_trim] at this
        simpa [flatNws_cons, List.append_assoc] using this
      · split at h
        · have := ih _ _ _ _ h
          rw [flatNws_push, nws_trim] at this
          simpa [flatNws_cons, List.append_assoc] using this
        · revert h
          split
          · intro h; exact Option.noConfusion h
          · next c2 cur2 heq =>
            intro h
            have hsent := procSentences_nws _ _ _ _ _ heq
            rw [flatNws_push, splitSentences_nws, nws_trim] at hsent
            have hih := ih _ _ _ _ h
            have hsent2 : List.Sublist ((flatNws chunks ++ nws cur) ++ nws p)
                (flatNws c2 ++ nws cur2) := by
              simpa [nws, List.append_assoc] using hsent
            have step := hsent2.append (List.Sublist.refl (flatNws rest))
            have := step.trans (by simpa [List.append_assoc] using hih)
            simpa [flatNws_cons, List.append_assoc] using this

/-- C5: for every text `t` and positive limit `m`, the non-whitespace
characters of `t` form a subsequence of the concatenation of the chunks
returned by `chunkText t m`: splitting, trimming and ellipsis insertion
drop only whitespace, never content. -/
theorem chunkText_preserves_content (fuel : Nat) (t : List Char) (m : Nat)
    (l : List (List Char)) (hm : 0 < m) (h : chunkText fuel t m = some l) :
    List.Sublist (nws t) (nws (joinL l)) := by
  rw [nws_joinL]
  unfold chunkText at h
  split at h
  · next h0 =>
    simp only [Option.some.injEq] at h
    obtain rfl := h
    subst h0
    simp [nws, flatNws, joinL]
  · split at h
    · simp only [Option.some.injEq] at h
      obtain rfl := h
      simp [flatNws_cons, flatNws, joinL]
    · revert h
      split
      · intro h; exact Option.noConfusion h
      · next chunks cur heq =>
        intro h
        simp only [Option.some.injEq] at h
        obtain rfl := h
        have hpp := procParas_nws _ _ _ _ _ heq
        rw [splitParas_nws] at hpp
        rw [flatNws_push]
        simpa [flatNws, joinL, nws] using hpp

/-- Witness for C5 at `t = "ab"`, `m = 4`. -/
theorem chunkText_preserves_content_witness :
    List.Sublist (nws ['a', 'b']) (nws (joinL [['a', 'b']])) :=
  chunkText_preserves_content 10 ['a', 'b'] 4 [['a', 'b']] (by decide) rfl

/-- A Sanity field value (the JSON-like shapes the source dispatches on).
JavaScript numbers are modelled as an integer value together with an
integer-ness flag (`Number.isInteger`). -/
inductive SVal where
  | null : SVal
  | str : List Char → SVal
  | num : Int → Bool → SVal
  | boolV : Bool → SVal
  | arr : List SVal → SVal
  | obj : List (List Char × SVal) → SVal

/-- JavaScript object property lookup on an entry list: a later entry with
the same key overwrites an earlier one. -/
def lookupLast {α : Type} : List (List Char × α) → List Char → Option α
  | [], _ => none
  | (k, v) :: rest, key =>
    match lookupLast rest key with
    | some r => some r
    | none => if k = key then some v else none

/-- `value[prop]` on a Sanity value (non-objects have no properties). -/
def getProp : SVal → List Char → Option SVal
  | .obj fields, k => lookupLast fields k
  | _, _ => none

/-- JavaScript truthiness of a value. -/
def truthy : SVal → Bool
  | .null => false
  | .str s => !s.isEmpty
  | .num n _ => n != 0
  | .boolV b => b
  | .arr _ => true
  | .obj _ => true

/-- `typeof value === 'object' && value !== null` (arrays are objects). -/
def isJsObj : SVal → Bool
  | .arr _ => true
  | .obj _ => true
  | _ => false

mutual
/-- JavaScript string coercion (as in a template literal). -/
def jsToStr : SVal → List Char
  | .null => "null".data
  | .str s => s
  | .num n _ => (toString n).data
  | .boolV true => "true".data
  | .boolV false => "false".data
  | .arr vs => jsToStrList vs
  | .obj _ => "[object Object]".data
/-- JavaScript `Array.prototype.toString` (elements joined with commas). -/
def jsToStrList : List SVal → List Char
  | [] => []
  | [v] => jsToStr v
  | v :: rest => jsToStr v ++ ',' :: jsToStrList rest
end

/-- `value._type === s` (strict string equality with a tag). -/
def typeTagIs (v : SVal) (s : List Char) : Bool :=
  match getProp v ("_type".data) with
  | some (.str t) => t = s
  | _ => false

/-- `/^\d{4}-\d{2}-\d{2}(T\d{2}:\d{2})?/.test(value)`: the optional group
never affects the outcome, so this is a date-shaped 10-character head. -/
def isDatetimeLike : List Char → Bool
  | a :: b :: c :: d :: '-' :: e :: f :: '-' :: g :: h :: _ =>
    a.isDigit && b.isDigit && c.isDigit && d.isDigit &&
    e.isDigit && f.isDigit && g.isDigit && h.isDigit
  | _ => false

/-- `inferFieldType` from the source (the field-type classifier). -/
def inferFieldType (v : SVal) : List Char :=
  match v with
  | .null => "unknown".data
  | .str s => if isDatetimeLike s then "datetime".data else "string".data
  | .num _ isInt => if isInt then "integer".data else "number".data
  | .boolV _ => "boolean".data
  | .arr vs =>
    match vs with
    | [] => "array".data
    | v0 :: _ =>
      if isJsObj v0 then
        match getProp v0 ("_type".data) with
        | some (.str t) =>
          if t = "block".data then "portableText".data
          else if t = "reference".data then "array of references".data
          else if t ≠ [] then "array of ".data ++ t
          else "array of objects".data
        | some tv =>
          if truthy tv then "array of ".data ++ jsToStr tv
          else "array of objects".data
        | none => "array of objects".data
      else "array".data
  | .obj _ =>
    if typeTagIs v ("slug".data) then "slug".data
    else if typeTagIs v ("image".data) then "image".data
    else if typeTagIs v ("reference".data) then "reference".data
    else
      match getProp v ("asset".data) with
      | some a =>
        if isJsObj a then "image".data
        else objTypeOrObject v
      | none => objTypeOrObject v
where
  /-- `obj._type ? String(obj._type) : 'object'`. -/
  objTypeOrObject (v : SVal) : List Char :=
    match getProp v ("_type".data) with
    | some tv => if truthy tv then jsToStr tv else "object".data
    | none => "object".data

/-- GROQ `defined(field)` on a document. -/
def fieldDefined (d : SVal) (field : List Char) : Bool :=
  match getProp d field with
  | none => false
  | some .null => false
  | some _ => true

/-- The sample fetch of `getFieldTypeFromSchema`:
`*[_type == $type && defined(field)][0...3].field` over a document store. -/
def sampleField (store : List SVal) (documentType field : List Char) : List SVal :=
  ((store.filter (fun d => typeTagIs d documentType && fieldDefined d field)).take 3).filterMap
    (fun d => getProp d field)

/-- `getFieldTypeFromSchema` from the source: the fetch outcome (error or
sample list) is a parameter; a fetch failure is caught and yields
`'unknown'`, never an error. -/
def getFieldTypeFromSchema (fetchResult : Except (List Char) (List SVal)) :
    List Char :=
  match fetchResult with
  | .error _ => "unknown".data
  | .ok [] => "unknown".data
  | .ok (s :: _) => inferFieldType s

/-- One Portable Text span as built by `textToPortableText`. -/
structure PTSpan where
  skey : List Char
  stype : List Char
  marks : List (List Char)
  text : List Char
deriving DecidableEq, Repr

/-- One Portable Text block as built by `textToPortableText`. -/
structure PTBlock where
  bkey : List Char
  btype : List Char
  children : List PTSpan
  markDefs : List (List Char)
  style : List Char
deriving DecidableEq, Repr

/-- Worker for `text.split('\n\n')` (literal two-newline separator,
non-overlapping, left to right). -/
def snAux : List Char → List Char → List (List Char)
  | [], acc => [acc.reverse]
  | '\n' :: '\n' :: rest, acc => acc.reverse :: snAux rest []
  | c :: rest, acc => snAux rest (c :: acc)

/-- `text.split('\n\n')`. -/
def splitLitNN (l : List Char) : List (List Char) := snAux l []

def natChars (i : Nat) : List Char := (toString i).data

def blocksFromParas : Nat → List (List Char) → List PTBlock
  | _, [] => []
  | i, p :: rest =>
    { bkey := "block-".data ++ natChars i
      btype := "block".data
      children := [{ skey := "span-".data ++ natChars i
                     stype := "span".data
                     marks := []
                     text := trim p }]
      markDefs := []
      style := "normal".data } :: blocksFromParas (i + 1) rest

/-- `textToPortableText` from the source (the rich-text write path). -/
def textToPortableText (text : List Char) : List PTBlock :=
  blocksFromParas 0 (splitLitNN text)

/-- The result of `resolveFieldValue`: a plain string or a block array. -/
inductive ResolvedValue where
  | plain : List Char → ResolvedValue
  | blocks : List PTBlock → ResolvedValue
deriving DecidableEq, Repr

/-- `resolveFieldValue` from the source: convert to Portable Text exactly
when the sampled field type is `'portableText'`, else pass the string
through. -/
def resolveFieldValue (fetchResult : Except (List Char) (List SVal))
    (textValue : List Char) : ResolvedValue :=
  if getFieldTypeFromSchema fetchResult = "portableText".data then
    .blocks (textToPortableText textValue)
  else
    .plain textValue

/-- `formatFieldLabel` from the source: capitalize the first character,
replace underscores with spaces in the rest. -/
def formatFieldLabel : List Char → List Char
  | [] => []
  | c :: rest => c.toUpper :: rest.map (fun ch => if ch = '_' then ' ' else ch)

/-- The source's system-field set in `extractDocumentText`. -/
def systemFieldsL : List (List Char) :=
  ["_id".data, "_type".data, "_rev".data, "_createdAt".data,
   "_updatedAt".data, "_key".data]

/-- The value-shape dispatch of `extractDocumentText` for one field (plain
string, slug with truthy `current`; everything else skipped). -/
def valueSection (k : List Char) (v : SVal) : Option (List Char) :=
  match v with
  | .str s => if trim s ≠ [] then some (formatFieldLabel k ++ ": ".data ++ trim s) else none
  | _ =>
    if isJsObj v then
      if typeTagIs v ("slug".data) then
        match getProp v ("current".data) with
        | some cv =>
          if truthy cv then some (formatFieldLabel k ++ ": ".data ++ jsToStr cv)
          else none
        | none => none
      else none
    else none

/-- One loop iteration of `extractDocumentText`: the section contributed by
a field, if any (`none` both for a skipped field and for `continue`). -/
def fieldSection (ptTextFields : List (List Char × List Char))
    (k : List Char) (v : SVal) : Option (List Char) :=
  if k ∈ systemFieldsL then none
  else
    match lookupLast ptTextFields (k ++ "Text".data) with
    | some s =>
      if s ≠ [] then
        if trim s ≠ [] then some (formatFieldLabel k ++ ": ".data ++ trim s)
        else none
      else valueSection k v
    | none => valueSection k v

/-- `sections.join('\n\n')`. -/
def joinSections : List (List Char) → List Char
  | [] => []
  | [s] => s
  | s :: rest => s ++ '\n' :: '\n' :: joinSections rest

/-- `extractDocumentText` from the source (the rich-text read path /
document flattener), over the document's entry list. -/
def extractDocumentText (doc : List (List Char × SVal))
    (ptTextFields : List (List Char × List Char)) : List Char :=
  joinSections (doc.filterMap (fun kv => fieldSection ptTextFields kv.1 kv.2))

/-- The per-field flattening rule as the specification states it: no
section for a system field; a plain non-empty string field contributes
`"<Label>: <value>"`; a slug-shaped field contributes its `current`
sub-value; every other shape (images, references, nested objects, arrays,
scalars) contributes nothing.  Stated from the spec's words, for comparison
with `fieldSection` translated from the source. -/
def specFlattenSection (k : List Char) (v : SVal) : Option (List Char) :=
  if k ∈ systemFieldsL then none
  else
    match v with
    | .str s =>
      if trim s ≠ [] then some (formatFieldLabel k ++ ": ".data ++ trim s)
      else none
    | .obj _ =>
      if typeTagIs v ("slug".data) then
        match getProp v ("current".data) with
        | some cv =>
          if truthy cv then some (formatFieldLabel k ++ ": ".data ++ jsToStr cv)
          else none
        | none => none
      else none
    | _ => none

theorem fieldSection_empty_eq (k : List Char) (v : SVal) :
    fieldSection [] k v = specFlattenSection k v := by
  by_cases hk : k ∈ systemFieldsL
  · simp [fieldSection, specFlattenSection, hk]
  · simp only [fieldSection, specFlattenSection, hk, if_false, lookupLast]
    cases v <;> simp [valueSection, isJsObj, typeTagIs, getProp]

/-- C7: flattening a document with no precomputed flattened-text entries
emits no section for any system field and none for a field classified as
`image`, `reference` or unlabeled `object`; only non-empty string fields
and slug-shaped fields (via their `current` sub-value) contribute, joined
with a blank line — `extractDocumentText doc []` coincides with the
spec-side rule `specFlattenSection` applied field by field. -/
theorem extractDocumentText_empty_pt (doc : List (List Char × SVal)) :
    extractDocumentText doc []
        = joinSections (doc.filterMap (fun kv => specFlattenSection kv.1 kv.2)) ∧
    (∀ k v, k ∈ systemFieldsL → fieldSection [] k v = none) ∧
    (∀ k v, inferFieldType v = "image".data ∨ inferFieldType v = "reference".data ∨
        inferFieldType v = "object".data → fieldSection [] k v = none) := by
  refine ⟨?_, ?_, ?_⟩
  · unfold extractDocumentText
    have : doc.filterMap (fun kv => fieldSection [] kv.1 kv.2)
        = doc.filterMap (fun kv => specFlattenSection kv.1 kv.2) := by
      induction doc with
      | nil => rfl
      | cons kv rest ih =>
        simp only [List.filterMap_cons, fieldSection_empty_eq, ih]
    rw [this]
  · intro k v hk
    simp [fieldSection, hk]
  · intro k v hv
    rw [fieldSection_empty_eq]
    by_cases hk : k ∈ systemFieldsL
    · simp [specFlattenSection, hk]
    · simp only [specFlattenSection, hk, if_false]
      cases v with
      | null => rcases hv with h | h | h <;> exact absurd h (by decide)
      | str s =>
        by_cases hdt : isDatetimeLike s = true <;>
          simp only [inferFieldType, hdt, if_true, if_false, Bool.false_eq_true] at hv <;>
          rcases hv with h | h | h <;> exact absurd h (by decide)
      | num n isInt =>
        cases isInt <;> simp only [inferFieldType] at hv <;>
          rcases hv with h | h | h <;> exact absurd h (by decide)
      | boolV b => cases b <;> rcases hv with h | h | h <;> exact absurd h (by decide)
      | arr vs => rfl
      | obj fields =>
        by_cases hslug : typeTagIs (.obj fields) ("slug".data) = true
        · simp only [inferFieldType, hslug, if_true] at hv
          rcases hv with h | h | h <;> exact absurd h (by decide)
        · simp [hslug]

/-- Witness for C7 at an image-classified field value. -/
theorem extractDocumentText_empty_pt_witness :
    fieldSection [] ("photo".data)
      (SVal.obj [("_type".data, SVal.str ("image".data))]) = none :=
  (extractDocumentText_empty_pt []).2.2 _ _ (Or.inl (by decide))

/-- C8: the schema sampler fetches at most 3 samples
(`*[_type == $type && defined(f)][0...3].f`), classifies the first sample
when one exists, and returns `'unknown'` both when no samples exist and
when the fetch fails — a failure is absorbed, never propagated. -/
theorem getFieldTypeFromSchema_spec :
    (∀ (store : List SVal) (documentType field : List Char),
      (sampleField store documentType field).length ≤ 3) ∧
    (∀ e, getFieldTypeFromSchema (.error e) = "unknown".data) ∧
    getFieldTypeFromSchema (.ok []) = "unknown".data ∧
    (∀ s rest, getFieldTypeFromSchema (.ok (s :: rest)) = inferFieldType s) := by
  refine ⟨?_, fun _ => rfl, rfl, fun _ _ => rfl⟩
  intro store documentType field
  unfold sampleField
  calc (((store.filter _).take 3).filterMap fun d => getProp d field).length
      ≤ ((store.filter (fun d => typeTagIs d documentType && fieldDefined d field)).take 3).length :=
        List.length_filterMap_le _ _
    _ ≤ 3 := List.length_take_le ..

/-- C9: the field resolver returns the Portable Text encoding of the text
exactly when the sampled field type is `'portableText'`, and the plain
string unchanged in every other case — in particular when no samples exist
(`'unknown'` verdict). -/
theorem resolveFieldValue_spec :
    (∀ fetchResult textValue,
      (getFieldTypeFromSchema fetchResult = "portableText".data →
        resolveFieldValue fetchResult textValue
          = .blocks (textToPortableText textValue)) ∧
      (getFieldTypeFromSchema fetchResult ≠ "portableText".data →
        resolveFieldValue fetchResult textValue = .plain textValue)) ∧
    (∀ textValue, resolveFieldValue (.ok []) textValue = .plain textValue) := by
  constructor
  · intro fetchResult textValue
    constructor
    · intro h
      simp [resolveFieldValue, h]
    · intro h
      simp [resolveFieldValue, h]
  · intro textValue
    rfl

/-- Witness for C9 on a store whose sampled field is Portable Text. -/
theorem resolveFieldValue_spec_witness :
    resolveFieldValue
        (.ok [SVal.arr [SVal.obj [("_type".data, SVal.str ("block".data))]]])
        ("hi".data)
      = .blocks (textToPortableText ("hi".data)) :=
  (resolveFieldValue_spec.1 _ _).1 (by decide)

/-- One context block of `retrieve_context` (the per-chunk output record). -/
structure CtxBlock where
  document_id : List Char
  document_type : List Char
  title : List Char
  updated_at : List Char
  relevance_score : Int
  chunk_index : Nat
  total_chunks : Nat
  text : List Char
  char_count : Nat
deriving DecidableEq, Repr

/-- The remaining character budget; `none` models JavaScript `Infinity`. -/
def budgetLE0 : Option Int → Bool
  | none => false
  | some v => decide (v ≤ 0)

def budgetSub (b : Option Int) (n : Nat) : Option Int :=
  match b with
  | none => none
  | some v => some (v - n)

/-- `x as string` on a value expected to be a string (system ids). -/
def asStrD (o : Option SVal) : List Char :=
  match o with
  | some (.str s) => s
  | _ => []

/-- A `a || b || ...` truthiness chain over property lookups. -/
def firstTruthy : List (Option SVal) → Option SVal
  | [] => none
  | o :: rest =>
    match o with
    | some v => if truthy v then some v else firstTruthy rest
    | none => firstTruthy rest

/-- `(x || '') as string`, stringified as the template literal uses it. -/
def jsToStrO (o : Option SVal) : List Char :=
  match o with
  | some v => jsToStr v
  | none => []

def objEntries : SVal → List (List Char × SVal)
  | .obj fields => fields
  | _ => []

def docIdOf (doc : SVal) : List Char := asStrD (getProp doc ("_id".data))

/-- `searchMeta[result._id] = result` over the ranked search results. -/
def searchMetaList (searchResults : List SVal) : List (List Char × SVal) :=
  searchResults.map (fun r => (docIdOf r, r))

/-- `searchMeta[docId] || {}`. -/
def metaFor (searchResults : List SVal) (docId : List Char) : SVal :=
  match lookupLast (searchMetaList searchResults) docId with
  | some m => m
  | none => .obj []

/-- `key.endsWith('Text')`. -/
def endsWithText (k : List Char) : Bool :=
  match k.reverse with
  | 't' :: 'x' :: 'e' :: 'T' :: _ => true
  | _ => false

/-- The `ptTextFields` record built per document: entries whose key ends in
`Text` and whose value is a string. -/
def ptFieldsOf (doc : List (List Char × SVal)) : List (List Char × List Char) :=
  doc.filterMap (fun kv =>
    match kv.2 with
    | .str s => if endsWithText kv.1 then some (kv.1, s) else none
    | _ => none)

def docTypeOf (doc : SVal) : List Char :=
  jsToStrO (firstTruthy [getProp doc ("_type".data)])

def docTitleOf (srs : List SVal) (doc : SVal) : List Char :=
  jsToStrO (firstTruthy
    [getProp (metaFor srs (docIdOf doc)) ("title".data),
     getProp (metaFor srs (docIdOf doc)) ("name".data),
     getProp doc ("title".data),
     getProp doc ("name".data)])

def updatedAtOf (srs : List SVal) (doc : SVal) : List Char :=
  jsToStrO (firstTruthy
    [getProp (metaFor srs (docIdOf doc)) ("_updatedAt".data),
     getProp doc ("_updatedAt".data)])

/-- `(meta._score || 0) as number`. -/
def scoreOf (meta : SVal) : Int :=
  match getProp meta ("_score".data) with
  | some (.num n _) => n
  | _ => 0

/-- The per-document constants of the chunk-emission loop. -/
structure DocCtx where
  includeMetadata : Bool
  header : List Char
  docId : List Char
  docType : List Char
  docTitle : List Char
  updatedAt : List Char
  score : Int
  total : Nat

/-- `` `[${docType}] ${docTitle} (ID: ${docId})` ``. -/
def headerFor (docType docTitle docId : List Char) : List Char :=
  '[' :: (docType ++ ']' :: ' ' ::
    (docTitle ++ ' ' :: '(' :: 'I' :: 'D' :: ':' :: ' ' :: (docId ++ [')'])))

def docCtxOf (im : Bool) (srs : List SVal) (doc : SVal) (total : Nat) : DocCtx :=
  { includeMetadata := im
    header := headerFor (docTypeOf doc) (docTitleOf srs doc) (docIdOf doc)
    docId := docIdOf doc
    docType := docTypeOf doc
    docTitle := docTitleOf srs doc
    updatedAt := updatedAtOf srs doc
    score := scoreOf (metaFor srs (docIdOf doc))
    total := total }

def mkBlock (d : DocCtx) (i : Nat) (text : List Char) : CtxBlock :=
  { document_id := d.docId
    document_type := d.docType
    title := d.docTitle
    updated_at := d.updatedAt
    relevance_score := d.score
    chunk_index := i
    total_chunks := d.total
    text := text
    char_count := text.length }

/-- `if (chunkText.length > charBudget) chunkText = chunkText.slice(0,
charBudget - 3) + '...'` — truncation against the remaining budget. -/
def truncTo (c : List Char) (b : Option Int) : List Char :=
  match b with
  | none => c
  | some v => if (c.length : Int) > v then jsSlice c 0 (v - 3) ++ ellipsis else c

/-- The emitted text of chunk `i`: the (possibly truncated) chunk, with the
metadata header prepended to a document's first chunk — after truncation,
as in the source. -/
def emitText (d : DocCtx) (i : Nat) (c : List Char) (b : Option Int) : List Char :=
  if d.includeMetadata && i == 0 then d.header ++ '\n' :: '\n' :: truncTo c b
  else truncTo c b

/-- The inner `for (let i = 0; i < textChunks.length; i++)` loop of
`retrieveContext`: emit blocks while the budget stays positive, decrement
the budget by each emitted text's length. -/
def emitChunks (d : DocCtx) : List (List Char) → Nat → Option Int →
    List CtxBlock × Option Int
  | [], _, budget => ([], budget)
  | c :: rest, i, budget =>
    if budgetLE0 budget then ([], budget)
    else
      match emitChunks d rest (i + 1)
          (budgetSub budget (emitText d i c budget).length) with
      | (bs, b') => (mkBlock d i (emitText d i c budget) :: bs, b')

/-- The outer `for (const doc of fullDocs)` loop of `retrieveContext`:
skip documents with empty flattened text, chunk the rest, emit under the
shared budget (`none` from `chunkText` fuel exhaustion propagates). -/
def assembleDocs (chunkSize fuel : Nat) (im : Bool) (srs : List SVal) :
    List SVal → Option Int → Option (List CtxBlock)
  | [], _ => some []
  | doc :: rest, budget =>
    if budgetLE0 budget then some []
    else
      if extractDocumentText (objEntries doc) (ptFieldsOf (objEntries doc)) = [] then
        assembleDocs chunkSize fuel im srs rest budget
      else
        match chunkText fuel
            (extractDocumentText (objEntries doc) (ptFieldsOf (objEntries doc)))
            chunkSize with
        | none => none
        | some tcs =>
          match emitChunks (docCtxOf im srs doc tcs.length) tcs 0 budget with
          | (bs, b') =>
            match assembleDocs chunkSize fuel im srs rest b' with
            | none => none
            | some more => some (bs ++ more)

/-- `Math.min(parameters.max_results || 5, 20)`. -/
def maxResultsOf (p : Option Int) : Int :=
  min (match p with
       | none => 5
       | some v => if v == 0 then 5 else v) 20

/-- `maxChars`: an explicit non-zero `max_chars`, else the default
`chunkSize * maxResults`. -/
def maxCharsOf (chunkSize : Nat) (maxResultsParam maxCharsParam : Option Int) : Int :=
  match maxCharsParam with
  | some v => if v ≠ 0 then v else (chunkSize : Int) * maxResultsOf maxResultsParam
  | none => (chunkSize : Int) * maxResultsOf maxResultsParam

/-- `charBudget = maxChars > 0 ? maxChars : Infinity`. -/
def initBudget (chunkSize : Nat) (maxResultsParam maxCharsParam : Option Int) :
    Option Int :=
  if maxCharsOf chunkSize maxResultsParam maxCharsParam > 0 then
    some (maxCharsOf chunkSize maxResultsParam maxCharsParam)
  else none

/-- The context-assembly part of `retrieveContext` (step 2 onwards): the
two fetch results — the ranked search hits and the full documents returned
by the content fetch — are parameters; an empty search result returns an
empty block list. -/
def retrieveContext (chunkSize : Nat) (maxResultsParam maxCharsParam : Option Int)
    (includeMetadata : Bool) (fuel : Nat)
    (searchResults fullDocs : List SVal) : Option (List CtxBlock) :=
  if searchResults.isEmpty then some []
  else
    assembleDocs chunkSize fuel includeMetadata searchResults fullDocs
      (initBudget chunkSize maxResultsParam maxCharsParam)

/-- The sum of `char_count` over a block list. -/
def sumCC (l : List CtxBlock) : Nat := (l.map CtxBlock.char_count).sum

theorem sumCC_nil : sumCC [] = 0 := rfl

theorem sumCC_cons (b : CtxBlock) (l : List CtxBlock) :
    sumCC (b :: l) = b.char_count + sumCC l := by
  simp [sumCC]

theorem sumCC_append (l1 l2 : List CtxBlock) :
    sumCC (l1 ++ l2) = sumCC l1 + sumCC l2 := by
  simp [sumCC]

theorem emitChunks_stop (d : DocCtx) (cs : List (List Char)) (i : Nat)
    (b : Option Int) (hb : budgetLE0 b = true) :
    (emitChunks d cs i b).1 = [] := by
  cases cs with
  | nil => rfl
  | cons c rest => simp [emitChunks, hb]

theorem emitChunks_budget (d : DocCtx) :
    ∀ (cs : List (List Char)) (i : Nat) (v : Int),
      (emitChunks d cs i (some v)).2
        = some (v - sumCC (emitChunks d cs i (some v)).1) := by
  intro cs
  induction cs with
  | nil =>
    intro i v
    simp [emitChunks, sumCC]
  | cons c rest ih =>
    intro i v
    by_cases hb : budgetLE0 (some v) = true
    · simp [emitChunks, hb, sumCC]
    · rw [Bool.not_eq_true] at hb
      simp only [emitChunks, hb, Bool.false_eq_true, if_false]
      rcases hemit : emitChunks d rest (i + 1)
          (budgetSub (some v) (emitText d i c (some v)).length) with ⟨bs, b'⟩
      simp only [hemit]
      have h2 := ih (i + 1) (v - (emitText d i c (some v)).length)
      have hbsub : budgetSub (some v) (emitText d i c (some v)).length
          = some (v - (emitText d i c (some v)).length) := rfl
      rw [hbsub] at hemit
      rw [hemit] at h2
      simp only at h2
      rw [h2, sumCC_cons]
      have hcc : (mkBlock d i (emitText d i c (some v))).char_count
          = (emitText d i c (some v)).length := rfl
      rw [hcc]
      congr 1
      push_cast
      ring

theorem emitChunks_dropLast (d : DocCtx) :
    ∀ (cs : List (List Char)) (i : Nat) (v : Int), 0 < v →
      (sumCC ((emitChunks d cs i (some v)).1.dropLast) : Int) < v := by
  intro cs
  induction cs with
  | nil =>
    intro i v hv
    simpa [emitChunks, sumCC] using hv
  | cons c rest ih =>
    intro i v hv
    have hb : budgetLE0 (some v) = false := by
      simp only [budgetLE0, decide_eq_false_iff_not]
      omega
    simp only [emitChunks, hb, Bool.false_eq_true, if_false]
    rcases hemit : emitChunks d rest (i + 1)
        (budgetSub (some v) (emitText d i c (some v)).length) with ⟨bs, b'⟩
    simp only [hemit]
    have hbsub : budgetSub (some v) (emitText d i c (some v)).length
        = some (v - (emitText d i c (some v)).length) := rfl
    rw [hbsub] at hemit
    cases bs with
    | nil =>
      simp only [List.dropLast_single, sumCC_nil]
      exact_mod_cast hv
    | cons b2 bs2 =>
      have hbpos : 0 < v - ((emitText d i c (some v)).length : Int) := by
        by_contra hng
        have hstop : budgetLE0 (some (v - ((emitText d i c (some v)).length : Int)))
            = true := by
          simp only [budgetLE0, decide_eq_true_eq]
          omega
        have := emitChunks_stop d rest (i + 1) _ hstop
        rw [hemit] at this
        exact List.noConfusion this
      have hih := ih (i + 1) (v - (emitText d i c (some v)).length) hbpos
      rw [hemit] at hih
      simp only at hih
      rw [List.dropLast_cons₂, sumCC_cons]
      have hcc : (mkBlock d i (emitText d i c (some v))).char_count
          = (emitText d i c (some v)).length := rfl
      rw [hcc]
      push_cast at *
      omega

theorem assembleDocs_pos_of_ne (chunkSize fuel : Nat) (im : Bool)
    (srs : List SVal) (docs : List SVal) (v : Int) (more : List CtxBlock)
    (h : assembleDocs chunkSize fuel im srs docs (some v) = some more)
    (hne : more ≠ []) : 0 < v := by
  cases docs with
  | nil =>
    simp only [assembleDocs, Option.some.injEq] at h
    exact absurd h.symm hne
  | cons doc rest =>
    unfold assembleDocs at h
    by_cases hb : budgetLE0 (some v) = true
    · rw [if_pos hb] at h
      simp only [Option.some.injEq] at h
      exact absurd h.symm hne
    · simp only [budgetLE0, decide_eq_true_eq] at hb
      omega

theorem assembleDocs_dropLast (chunkSize fuel : Nat) (im : Bool) (srs : List SVal) :
    ∀ (docs : List SVal) (v : Int) (l : List CtxBlock),
      0 < v → assembleDocs chunkSize fuel im srs docs (some v) = some l →
      (sumCC l.dropLast : Int) < v := by
  intro docs
  induction docs with
  | nil =>
    intro v l hv h
    simp only [assembleDocs, Option.some.injEq] at h
    subst h
    simpa [sumCC] using hv
  | cons doc rest ih =>
    intro v l hv h
    unfold assembleDocs at h
    rw [if_neg (by simp only [budgetLE0, decide_eq_true_eq, Bool.not_eq_true,
      decide_eq_false_iff_not]; omega)] at h
    split at h
    · exact ih v l hv h
    · revert h
      split
      · intro h; exact Option.noConfusion h
      · next tcs htcs =>
        intro h
        rcases hemit : emitChunks (docCtxOf im srs doc tcs.length) tcs 0 (some v)
          with ⟨bs, b'⟩
        rw [hemit] at h
        have hb' := emitChunks_budget (docCtxOf im srs doc tcs.length) tcs 0 v
        rw [hemit] at hb'
        simp only at hb'
        subst hb'
        replace h : (match assembleDocs chunkSize fuel im srs rest
            (some (v - (sumCC bs : Int))) with
          | none => none
          | some more => some (bs ++ more)) = some l := h
        rcases hmore : assembleDocs chunkSize fuel im srs rest
            (some (v - (sumCC bs : Int))) with _ | more
        · rw [hmore] at h
          exact Option.noConfusion h
        · rw [hmore] at h
          simp only [Option.some.injEq] at h
          subst h
          by_cases hmn : more = []
          · subst hmn
            simp only [List.append_nil]
            have hdl := emitChunks_dropLast (docCtxOf im srs doc tcs.length) tcs 0 v hv
            rw [hemit] at hdl
            simpa using hdl
          · have hvpos : 0 < v - (sumCC bs : Int) :=
              assembleDocs_pos_of_ne chunkSize fuel im srs rest _ more hmore hmn
            have hmdrop := ih (v - sumCC bs) more hvpos hmore
            rw [List.dropLast_append_of_ne_nil _ hmn, sumCC_append]
            push_cast at *
            omega

/-- C1 (amended): with a positive requested budget `max_chars = B > 0`,
the sum of `char_count` over all returned blocks *except the last one* is
strictly below `B`; only the final emitted block can push the total past
`B` — through the metadata header prepended after truncation, or through
an ellipsis-truncation performed when the remaining budget is below 3
(`retrieveContext_budget_cx` exhibits the overshoot). -/
theorem retrieveContext_budget_amended (chunkSize : Nat) (mrp : Option Int)
    (B : Int) (im : Bool) (fuel : Nat) (srs fds : List SVal)
    (l : List CtxBlock) (hB : 0 < B)
    (h : retrieveContext chunkSize mrp (some B) im fuel srs fds = some l) :
    (sumCC l.dropLast : Int) < B := by
  unfold retrieveContext at h
  split at h
  · simp only [Option.some.injEq] at h
    subst h
    simpa [sumCC] using hB
  · have hbud : initBudget chunkSize mrp (some B) = some B := by
      have hmc : maxCharsOf chunkSize mrp (some B) = B := by
        simp only [maxCharsOf]
        rw [if_pos (by omega)]
      unfold initBudget
      rw [hmc, if_pos hB]
    rw [hbud] at h
    exact assembleDocs_dropLast chunkSize fuel im srs fds B l hB h

/-- Witness for C1 (amended) at an empty search result. -/
theorem retrieveContext_budget_amended_witness :
    (sumCC (([] : List CtxBlock).dropLast) : Int) < 5 :=
  retrieveContext_budget_amended 1000 (some 1) 5 true 30 [] [] [] (by decide) rfl

def cxMeta : SVal :=
  .obj [("_id".data, .str ("d1".data)), ("_score".data, .num 3 true)]

def cxDoc : SVal :=
  .obj [("_id".data, .str ("d1".data)), ("_type".data, .str ("post".data)),
        ("title".data, .str ("T".data)), ("body".data, .str ("abcdefghij".data))]

/-- C1 counterexample: with budget `B = 5` and the metadata flag set, the
single returned block has `char_count = 24 > 5`: the chunk is truncated to
the remaining budget and the one-line header is prepended *afterwards*, so
the bound `sum(char_count) ≤ B` fails. -/
theorem retrieveContext_budget_cx :
    (retrieveContext 1000 (some 1) (some 5) true 30 [cxMeta] [cxDoc]).map sumCC
      = some 24 ∧ ¬ (24 ≤ 5) := by
  constructor
  · rfl
  · decide

def c2Meta : SVal :=
  .obj [("_id".data, .str ("d1".data)), ("_score".data, .num 1 true)]

def c2Doc : SVal :=
  .obj [("_id".data, .str ("d1".data)), ("_type".data, .str ("t".data)),
        ("b".data, .str ("hijk".data))]

/-- C2: the code routes `max_chars = 0` to the *default* finite budget
`chunkSize * maxResults` (here `4`), not to the unlimited branch — with
chunk size 4 the document flattens to `"B: hijk"` and chunks into 4 pieces,
of which only 1 is returned; an actually unlimited budget (reachable only
through a negative `max_chars`, here `-1`, since `charBudget = maxChars > 0
? maxChars : Infinity`) returns all 4. -/
theorem retrieveContext_zero_budget_eval :
    (retrieveContext 4 (some 1) (some 0) false 40 [c2Meta] [c2Doc]).map
        List.length = some 1 ∧
    (retrieveContext 4 (some 1) (some (-1)) false 40 [c2Meta] [c2Doc]).map
        List.length = some 4 :=
  ⟨rfl, rfl⟩

/-- Blocks sorted by non-increasing relevance score. -/
def scoresDescending : List Int → Bool
  | [] => true
  | [_] => true
  | a :: b :: r => (decide (b ≤ a)) && scoresDescending (b :: r)

def c6MetaA : SVal :=
  .obj [("_id".data, .str ("a".data)), ("_score".data, .num 3 true)]

def c6MetaB : SVal :=
  .obj [("_id".data, .str ("b".data)), ("_score".data, .num 1 true)]

def c6DocA : SVal :=
  .obj [("_id".data, .str ("a".data)), ("_type".data, .str ("t".data)),
        ("b".data, .str ("aaaa".data))]

def c6DocB : SVal :=
  .obj [("_id".data, .str ("b".data)), ("_type".data, .str ("t".data)),
        ("b".data, .str ("bbbb".data))]

/-- C6 counterexample: the emission loop follows the *content fetch* order
(`fullDocs`), not the search rank order — when the content fetch returns
the documents in the opposite order (rank order `a` before `b`, fetch
order `b` before `a`), the emitted relevance scores are `[1, 3]`, not
descending. -/
theorem retrieveContext_order_cx :
    (retrieveContext 20 (some 2) (some 0) false 40 [c6MetaA, c6MetaB]
        [c6DocB, c6DocA]).map (fun l => l.map CtxBlock.relevance_score)
      = some [1, 3] ∧
    scoresDescending [1, 3] = false :=
  ⟨rfl, rfl⟩

/-- The first emitted block (if any) has `chunk_index = 0`. -/
def headIdx0 : List CtxBlock → Prop
  | [] => True
  | b :: _ => b.chunk_index = 0

/-- Every adjacent pair of blocks either continues the same document with
the next chunk index, or starts a document at chunk index 0. -/
def adjOk : List CtxBlock → Prop
  | [] => True
  | [_] => True
  | a :: b :: r =>
    ((b.chunk_index = a.chunk_index + 1 ∧ b.document_id = a.document_id) ∨
      b.chunk_index = 0) ∧ adjOk (b :: r)

/-- Collapse consecutive equal document ids (the per-document grouping of
a block list). -/
def dedupC : List (List Char) → List (List Char)
  | [] => []
  | [a] => [a]
  | a :: b :: r => if a = b then dedupC (b :: r) else a :: dedupC (b :: r)

theorem dedupC_cons_sub (a : List Char) (ys : List (List Char)) :
    (dedupC (a :: ys)).Sublist (a :: dedupC ys) := by
  cases ys with
  | nil => exact List.Sublist.refl _
  | cons b r =>
    simp only [dedupC]
    split
    · exact List.sublist_cons_self ..
    · exact List.Sublist.refl _

theorem dedupC_replicate (a : List Char) :
    ∀ (n : Nat) (ys : List (List Char)),
      dedupC (List.replicate (n + 1) a ++ ys) = dedupC (a :: ys) := by
  intro n
  induction n with
  | zero => intro ys; rfl
  | succ n ih =>
    intro ys
    have h1 : List.replicate (n + 2) a ++ ys
        = a :: a :: (List.replicate n a ++ ys) := by
      simp [List.replicate_succ]
    have h2 : (a :: (List.replicate n a ++ ys))
        = List.replicate (n + 1) a ++ ys := by
      simp [List.replicate_succ]
    rw [h1]
    show dedupC (a :: a :: (List.replicate n a ++ ys)) = dedupC (a :: ys)
    rw [show dedupC (a :: a :: (List.replicate n a ++ ys))
        = dedupC (a :: (List.replicate n a ++ ys)) by simp [dedupC]]
    rw [h2, ih]

theorem emitChunks_ids (d : DocCtx) :
    ∀ (cs : List (List Char)) (i : Nat) (b : Option Int),
      ((emitChunks d cs i b).1).map CtxBlock.document_id
        = List.replicate (emitChunks d cs i b).1.length d.docId := by
  intro cs
  induction cs with
  | nil => intro i b; rfl
  | cons c rest ih =>
    intro i b
    by_cases hb : budgetLE0 b = true
    · simp [emitChunks, hb]
    · rw [Bool.not_eq_true] at hb
      simp only [emitChunks, hb, Bool.false_eq_true, if_false]
      rcases hemit : emitChunks d rest (i + 1)
          (budgetSub b (emitText d i c b).length) with ⟨bs, b'⟩
      have := ih (i + 1) (budgetSub b (emitText d i c b).length)
      rw [hemit] at this
      simp only at this
      simp only [List.map_cons, List.length_cons, List.replicate_succ, this]
      rfl

theorem emitChunks_shape (d : DocCtx) (cs : List (List Char)) (i : Nat)
    (b : Option Int) :
    (emitChunks d cs i b).1 = [] ∨
    ∃ t bs', (emitChunks d cs i b).1 = mkBlock d i t :: bs' := by
  cases cs with
  | nil => exact Or.inl rfl
  | cons c rest =>
    by_cases hb : budgetLE0 b = true
    · exact Or.inl (by simp [emitChunks, hb])
    · rw [Bool.not_eq_true] at hb
      rcases hemit : emitChunks d rest (i + 1)
          (budgetSub b (emitText d i c b).length) with ⟨bs, b'⟩
      refine Or.inr ⟨emitText d i c b, bs, ?_⟩
      simp [emitChunks, hb, hemit]

theorem emitChunks_adj (d : DocCtx) :
    ∀ (cs : List (List Char)) (i : Nat) (b : Option Int) (rest : List CtxBlock),
      adjOk rest → headIdx0 rest → adjOk ((emitChunks d cs i b).1 ++ rest) := by
  intro cs
  induction cs with
  | nil =>
    intro i b rest h1 h2
    simpa [emitChunks] using h1
  | cons c cs' ih =>
    intro i b rest h1 h2
    by_cases hb : budgetLE0 b = true
    · simpa [emitChunks, hb] using h1
    · rw [Bool.not_eq_true] at hb
      rcases hemit : emitChunks d cs' (i + 1)
          (budgetSub b (emitText d i c b).length) with ⟨bs, b'⟩
      simp only [emitChunks, hb, Bool.false_eq_true, if_false, hemit,
        List.cons_append]
      have hTail := ih (i + 1) (budgetSub b (emitText d i c b).length) rest h1 h2
      rw [hemit] at hTail
      simp only at hTail
      rcases emitChunks_shape d cs' (i + 1) (budgetSub b (emitText d i c b).length)
        with hsh | ⟨t, bs', hsh⟩ <;> rw [hemit] at hsh <;> simp only at hsh <;>
        subst hsh
      · cases rest with
        | nil => exact trivial
        | cons r0 rr =>
          exact ⟨Or.inr h2, hTail⟩
      · exact ⟨Or.inl ⟨rfl, rfl⟩, hTail⟩

theorem assembleDocs_order (chunkSize fuel : Nat) (im : Bool) (srs : List SVal) :
    ∀ (docs : List SVal) (b : Option Int) (l : List CtxBlock),
      assembleDocs chunkSize fuel im srs docs b = some l →
      headIdx0 l ∧ adjOk l ∧
        (dedupC (l.map CtxBlock.document_id)).Sublist (docs.map docIdOf) := by
  intro docs
  induction docs with
  | nil =>
    intro b l h
    simp only [assembleDocs, Option.some.injEq] at h
    subst h
    exact ⟨trivial, trivial, List.nil_sublist _⟩
  | cons doc rest ih =>
    intro b l h
    unfold assembleDocs at h
    split at h
    · simp only [Option.some.injEq] at h
      subst h
      exact ⟨trivial, trivial, List.nil_sublist _⟩
    · split at h
      · obtain ⟨h1, h2, h3⟩ := ih b l h
        exact ⟨h1, h2, h3.trans (List.sublist_cons_self ..)⟩
      · revert h
        split
        · intro h; exact Option.noConfusion h
        · next tcs htcs =>
          intro h
          rcases hemit : emitChunks (docCtxOf im srs doc tcs.length) tcs 0 b
            with ⟨bs, b'⟩
          rw [hemit] at h
          replace h : (match assembleDocs chunkSize fuel im srs rest b' with
            | none => none
            | some more => some (bs ++ more)) = some l := h
          rcases hmore : assembleDocs chunkSize fuel im srs rest b' with _ | more
          · rw [hmore] at h
            exact Option.noConfusion h
          · rw [hmore] at h
            simp only [Option.some.injEq] at h
            subst h
            obtain ⟨ih1, ih2, ih3⟩ := ih b' more hmore
            refine ⟨?_, ?_, ?_⟩
            · rcases emitChunks_shape (docCtxOf im srs doc tcs.length) tcs 0 b
                with hsh | ⟨t, bs', hsh⟩ <;> rw [hemit] at hsh <;>
                simp only at hsh <;> subst hsh
              · simpa using ih1
              · exact rfl
            · have := emitChunks_adj (docCtxOf im srs doc tcs.length) tcs 0 b
                more ih2 ih1
              rw [hemit] at this
              simpa using this
            · have hids := emitChunks_ids (docCtxOf im srs doc tcs.length) tcs 0 b
              rw [hemit] at hids
              simp only at hids
              rw [List.map_append, hids]
              cases hbs : bs.length with
              | zero =>
                have : bs = [] := List.length_eq_zero.1 hbs
                subst this
                simp only [List.replicate, List.nil_append, List.map_cons]
                exact ih3.trans (List.sublist_cons_self ..)
              | succ n =>
                rw [hbs] at hids
                rw [dedupC_replicate]
                have hdid : (docCtxOf im srs doc tcs.length).docId = docIdOf doc := rfl
                rw [hdid, List.map_cons]
                exact (dedupC_cons_sub _ _).trans (ih3.cons₂ _)

/-- C6 (amended): the returned blocks are grouped per source document in
the order the content fetch (`fullDocs`) returns them — the sequence of
per-document groups is a subsequence of the fetch order, *not* necessarily
of the search rank order (`retrieveContext_order_cx`) — and within one
document `chunk_index` ascends contiguously from 0. -/
theorem retrieveContext_order_amended (chunkSize : Nat) (mrp mcp : Option Int)
    (im : Bool) (fuel : Nat) (srs fds : List SVal) (l : List CtxBlock)
    (h : retrieveContext chunkSize mrp mcp im fuel srs fds = some l) :
    headIdx0 l ∧ adjOk l ∧
      (dedupC (l.map CtxBlock.document_id)).Sublist (fds.map docIdOf) := by
  unfold retrieveContext at h
  split at h
  · simp only [Option.some.injEq] at h
    subst h
    exact ⟨trivial, trivial, List.nil_sublist _⟩
  · exact assembleDocs_order chunkSize fuel im srs fds _ l h

/-- Witness for C6 (amended) at an empty invocation. -/
theorem retrieveContext_order_amended_witness :
    headIdx0 ([] : List CtxBlock) ∧ adjOk ([] : List CtxBlock) ∧
      (dedupC (([] : List CtxBlock).map CtxBlock.document_id)).Sublist
        (([] : List SVal).map docIdOf) :=
  retrieveContext_order_amended 1000 (some 1) (some 5) true 30 [] [] [] rfl

end SanityTool
